import Mathlib

/-!
# Pollard's rho for discrete logarithms — verification of the spec

Shallow embedding of the `pollard_rho` Rust crate (src/lib.rs, src/generic.rs,
src/random_range.rs).  `rug::Integer` is modelled by `Int`.  The crate's
arithmetic primitives map as follows:

* `div_rem_euc_ref(m).1` (Euclidean remainder, always in `[0, m)` for `m > 0`)
  is `%` on `Int` (that is, `Int.emod`);
* the `/` operator on `rug::Integer` (truncation toward zero) is `Int.tdiv`;
* `mod_u(3)` (non-negative remainder) is `% 3` on `Int`;
* `gcd` (non-negative) is `Int.gcd` cast to `Int`;
* `invert_ref(m)` / `invert(m)` (the unique inverse in `[0, m)` when
  `gcd(x, m) = 1`, `None`/`Err` otherwise) is `invert` below;
* `pow_mod_ref(e, m)` (modular power, inverting the base for a negative
  exponent, `None` when that inverse does not exist) is `pow_mod` below.
-/

namespace PollardRho

/-- Unit error struct raised by the walk mapping functions (src/generic.rs). -/
structure MappingError where

/-- `MapResult<T> = Result<T, MappingError>` (src/generic.rs). -/
abbrev MapResult (α : Type) := Except MappingError α

/-- `Result::expect`: extracts the `Ok` payload.  In Rust it panics on `Err`;
the error branch of every mapping function is unreachable (`x mod 3` always
lies in `{0,1,2}`, see `funcs_never_fail`), so the panic is modelled by an
arbitrary default value. -/
def MapResult.expect (r : MapResult Int) : Int :=
  match r with
  | .ok v => v
  | .error _ => 0

/-- `func_f` (src/lib.rs): the walk-advance map over the group, dispatching on
`x_i mod 3`: class 0 squares mod `p`, class 1 multiplies by `base` mod `p`,
class 2 multiplies by `y` mod `p`. -/
def func_f (x_i base y p : Int) : MapResult Int :=
  if x_i % 3 = 0 then .ok ((x_i ^ 2) % p)
  else if x_i % 3 = 1 then .ok ((base * x_i) % p)
  else if x_i % 3 = 2 then .ok ((y * x_i) % p)
  else .error ⟨⟩

/-- `func_g` (src/lib.rs): advances the exponent of `base`, dispatching on
`x_i mod 3`: class 0 doubles mod `n`, class 1 adds one mod `n`, class 2 keeps
`a` unchanged. -/
def func_g (a n x_i : Int) : MapResult Int :=
  if x_i % 3 = 0 then .ok ((a * 2) % n)
  else if x_i % 3 = 1 then .ok ((a + 1) % n)
  else if x_i % 3 = 2 then .ok a
  else .error ⟨⟩

/-- `func_h` (src/lib.rs): advances the exponent of `y`, dispatching on
`x_i mod 3`: class 0 doubles mod `n`, class 1 keeps `b` unchanged, class 2
adds one mod `n`. -/
def func_h (b n x_i : Int) : MapResult Int :=
  if x_i % 3 = 0 then .ok ((b * 2) % n)
  else if x_i % 3 = 1 then .ok b
  else if x_i % 3 = 2 then .ok ((b + 1) % n)
  else .error ⟨⟩

/-- `rug::Integer::invert`, from the contract of the external big-integer
library: the unique modular inverse in `[0, m)` when `gcd(x, m) = 1`, `none`
when no inverse exists.  Realised as a bounded search so that the kernel can
evaluate it; `invert_complete` connects it to the Bézout coefficients. -/
def invert (x m : Int) : Option Int :=
  (List.range m.toNat).findSome?
    (fun v : Nat => if (x * (v : Int)) % m = 1 % m then some ((v : Int)) else none)

/-- `rug::Integer::pow_mod`: modular power.  For a non-negative exponent it is
`b ^ e mod m`; for a negative exponent the base is inverted first, and the
whole call yields `none` when that inverse does not exist. -/
def pow_mod (b e m : Int) : Option Int :=
  if 0 ≤ e then some ((b ^ e.toNat) % m)
  else Option.map (fun bi => (bi ^ (-e).toNat) % m) (invert b m)

/-- `eqs_solvers` (src/lib.rs): solves `(b1 - b2) * x ≡ (a2 - a1) (mod n)` at a
collision.  Reduces `r = (b1 - b2) mod n`; returns `none` for `r = 0`; inverts
`r` mod `n` when possible; otherwise falls back to dividing through by
`gcd(r, n)` — with the numerator written `a2 - a2` exactly as in the source. -/
def eqs_solvers (a1 b1 a2 b2 n : Int) : Option Int :=
  let r := (b1 - b2) % n
  if r = 0 then none
  else
    match invert r n with
    | some res_inv =>
        let dif := a2 - a1
        some ((res_inv * dif) % n)
    | none =>
        let div := (Int.gcd r n : Int)
        let res_l := (b1 - b2).tdiv div
        let res_r := (a2 - a2).tdiv div
        let p1 := n.tdiv div
        match invert res_l p1 with
        | some res_inv => some ((res_inv * res_r) % p1)
        | none => none

/-- One walker of `pollard_rho`: position `x_i` with exponent accumulators
`a_i` (of `base`) and `b_i` (of `y`). -/
structure WalkState where
  x_i : Int
  a_i : Int
  b_i : Int
deriving Repr, DecidableEq

/-- The "Single Step calculations" of the `pollard_rho` loop body
(src/lib.rs): `a_i`, `b_i` are updated via `func_g`, `func_h` at the old
position, then the position advances via `func_f`. -/
def step1 (base y p n : Int) (s : WalkState) : WalkState :=
  let a_i := (func_g s.a_i n s.x_i).expect
  let b_i := (func_h s.b_i n s.x_i).expect
  let x_i := (func_f s.x_i base y p).expect
  ⟨x_i, a_i, b_i⟩

/-- The "Double Step calculations" of the `pollard_rho` loop body
(src/lib.rs), transcribed literally with the intermediate values `xm_2i`,
`am_2i`, `bm_2i`. -/
def hare_step (base y p n : Int) (s : WalkState) : WalkState :=
  let xm_2i := (func_f s.x_i base y p).expect
  let am_2i := (func_g s.a_i n s.x_i).expect
  let a_2i := (func_g am_2i n xm_2i).expect
  let bm_2i := (func_h s.b_i n s.x_i).expect
  let b_2i := (func_h bm_2i n xm_2i).expect
  let x_2i := (func_f xm_2i base y p).expect
  ⟨x_2i, a_2i, b_2i⟩

/-- The `while &i < n` loop of `pollard_rho` (src/lib.rs).  The counter `i`
starts at `0` and increments only on non-colliding iterations, so the loop
body runs at most `n.toNat` times; `fuel` is the number of remaining
iterations.  On a collision the loop returns the solver's answer outright. -/
def rho_loop (base y p n : Int) : Nat → WalkState → WalkState → Option Int
  | 0, _, _ => none
  | fuel + 1, t, h =>
      let t' := step1 base y p n t
      let h' := hare_step base y p n h
      if t'.x_i = h'.x_i then eqs_solvers t'.a_i t'.b_i h'.a_i h'.b_i n
      else rho_loop base y p n fuel t' h'

/-- `pollard_rho` (src/lib.rs).  Modelled from the spec: the RangeSampler (a
Mersenne-twister `RandState` seeded with `seed`, consumed by
`gen_bigint_range(&mut rand, 0, n)` twice) is an external collaborator of the
core, so the two draws it produces for the seed are passed directly as `a0`
and `b0`; the sampler contract guarantees `0 ≤ a0 < n` and `0 ≤ b0 < n`.
Everything after the two draws transcribes the source. -/
def pollard_rho (a0 b0 base y p n : Int) : Option Int :=
  match pow_mod base a0 p, pow_mod y b0 p with
  | some x_i_base, some x_i_y =>
      let x0 := (x_i_base * x_i_y) % p
      rho_loop base y p n n.toNat ⟨x0, a0, b0⟩ ⟨x0, a0, b0⟩
  | _, _ => none

/-- The initial walker of `pollard_rho` for draws `a0`, `b0` (in the
non-degenerate case `0 ≤ a0`, `0 ≤ b0` where both `pow_mod` calls succeed). -/
def rho_init (a0 b0 base y p : Int) : WalkState :=
  ⟨((base ^ a0.toNat) % p * ((y ^ b0.toNat) % p)) % p, a0, b0⟩

/-- Iterates of the single step from a given walker: `rho_iter … s k` is the
walker after `k` applications of `step1`. -/
def rho_iter (base y p n : Int) (s : WalkState) : Nat → WalkState
  | 0 => s
  | k + 1 => step1 base y p n (rho_iter base y p n s k)

/-- The `loop` of `try_pollard_rho` (src/lib.rs): one attempt per call, seed
incremented and `remaining` (the model of `limit - loop_count`) decremented on
failure, zero returned when the budget is exhausted. -/
def try_loop (draw : Int → Int × Int) (base y p n : Int) : Nat → Int → Int
  | remaining, current_seed =>
      match pollard_rho (draw current_seed).1 (draw current_seed).2 base y p n with
      | some key => key
      | none =>
          match remaining with
          | 0 => 0
          | r + 1 => try_loop draw base y p n r (current_seed + 1)

/-- `try_pollard_rho` (src/lib.rs).  Modelled from the spec: `draw` maps each
seed to the pair of values the RangeSampler produces for that seed (see
`pollard_rho`); the retry logic transcribes the source. -/
def try_pollard_rho (draw : Int → Int × Int) (limit : Nat)
    (seed base y p n : Int) : Int :=
  try_loop draw base y p n limit seed

example : (-21 : Int) % 4 = 3 := by decide

/-! ## Helper lemmas -/

/-- If the modular-inverse search succeeds, the divisor and base are coprime. -/
lemma invert_some_gcd (x m v : Int) (h : invert x m = some v) : Int.gcd x m = 1 := by
  rw [invert, List.findSome?_eq_some_iff] at h
  obtain ⟨l1, a, l2, hsplit, ha, -⟩ := h
  split at ha
  · rename_i hmod
    have hdvd : m ∣ x * (a : Int) - 1 := Int.ModEq.dvd (Int.ModEq.symm hmod)
    have h1 : (Int.gcd x m : Int) ∣ 1 := by
      have hx : (Int.gcd x m : Int) ∣ x * (a : Int) := Dvd.dvd.mul_right Int.gcd_dvd_left _
      have hm : (Int.gcd x m : Int) ∣ x * (a : Int) - 1 :=
        dvd_trans Int.gcd_dvd_right hdvd
      have := dvd_sub hx hm
      simpa using this
    have : Int.gcd x m ∣ 1 := by exact_mod_cast h1
    exact Nat.dvd_one.mp this
  · exact absurd ha (by simp)

/-- If the modular-inverse search succeeds, the result is the inverse and lies
in `[0, m)`. -/
lemma invert_some_prop (x m v : Int) (h : invert x m = some v) :
    0 ≤ v ∧ v < m ∧ (x * v) % m = 1 % m := by
  rw [invert, List.findSome?_eq_some_iff] at h
  obtain ⟨l1, a, l2, hsplit, ha, -⟩ := h
  have hmem : a ∈ List.range m.toNat := by
    rw [hsplit]; exact List.mem_append_right _ (List.mem_cons_self a l2)
  have halt : a < m.toNat := List.mem_range.mp hmem
  split at ha
  · rename_i hmod
    have hv : v = (a : Int) := by simpa using ha.symm
    subst hv
    refine ⟨by positivity, ?_, hmod⟩
    omega
  · exact absurd ha (by simp)

/-- If the divisor and base are coprime and the modulus is positive, the
modular-inverse search succeeds (the Bézout coefficient is a witness). -/
lemma invert_complete (x m : Int) (hm : 0 < m) (hg : Int.gcd x m = 1) :
    ∃ v, invert x m = some v := by
  rcases h : invert x m with _ | v
  · exfalso
    rw [invert, List.findSome?_eq_none_iff] at h
    set w : Int := (Int.gcdA x m) % m with hw
    have hw0 : 0 ≤ w := Int.emod_nonneg _ (by omega)
    have hwlt : w < m := Int.emod_lt_of_pos _ hm
    have hmemw : w.toNat ∈ List.range m.toNat := by
      rw [List.mem_range]; omega
    have hcast : ((w.toNat : Int)) = w := Int.toNat_of_nonneg hw0
    have hinv : (x * w) % m = 1 % m := by
      have h1 : x * w ≡ x * Int.gcdA x m [ZMOD m] :=
        Int.ModEq.mul_left x (Int.emod_emod_of_dvd _ dvd_rfl)
      have h2 : x * Int.gcdA x m ≡ x * Int.gcdA x m + m * Int.gcdB x m [ZMOD m] :=
        (Int.add_mul_emod_self_left (a := x * Int.gcdA x m) (b := m)
          (c := Int.gcdB x m)).symm
      have h3 : x * Int.gcdA x m + m * Int.gcdB x m = 1 := by
        have := Int.gcd_eq_gcd_ab x m
        rw [hg] at this
        simpa using this.symm
      exact (h1.trans h2).trans (by rw [h3])
    have := h w.toNat hmemw
    rw [hcast, hinv] at this
    simp at this
  · exact ⟨v, rfl⟩

/-- Residues mod 3 are exhaustive: `x % 3` is `0`, `1` or `2`. -/
lemma emod_three_cases (x : Int) :
    x % 3 = 0 ∨ x % 3 = 1 ∨ x % 3 = 2 := by
  have h1 : 0 ≤ x % 3 := Int.emod_nonneg x (by norm_num)
  have h2 : x % 3 < 3 := Int.emod_lt_of_pos x (by norm_num)
  omega

/-- The hare update of the loop body is literally two single steps. -/
lemma hare_step_eq_two (base y p n : Int) (s : WalkState) :
    hare_step base y p n s = step1 base y p n (step1 base y p n s) := rfl

/-! ## C9 — hare step refinement -/

/-- C9: in each iteration of `pollard_rho`, the update applied to the hare
state is exactly two sequential applications of the single-step transformation
used for the tortoise (each half-step evaluates `func_g` and `func_h` at the
position before that half-step and then advances the position with `func_f`),
not a fused double-step formula. -/
theorem hare_double_step (base y p n : Int) (s : WalkState) :
    hare_step base y p n s = step1 base y p n (step1 base y p n s) :=
  hare_step_eq_two base y p n s

/-! ## C8 — mapping errors unreachable -/

/-- C8: for every input, each of `func_f`, `func_g`, `func_h` returns `Ok`
(never `Err MappingError`), because the dispatch value `x_i mod 3` always lies
in `{0, 1, 2}`; consequently none of the `.expect` calls on these functions
inside `pollard_rho` can fail. -/
theorem mapping_funcs_total (x_i base y p a b n : Int) :
    (∃ v, func_f x_i base y p = Except.ok v) ∧
    (∃ v, func_g a n x_i = Except.ok v) ∧
    (∃ v, func_h b n x_i = Except.ok v) := by
  rcases emod_three_cases x_i with h | h | h <;>
    simp [func_f, func_g, func_h, h]

/-! ## C4 — congruence solver zero case -/

/-- C4: for every `a1`, `a2` and every `b1`, `b2` with `(b1 - b2) mod n = 0`
(in particular whenever `b1 = b2`), `eqs_solvers` returns `none`, regardless
of `a1` and `a2`. -/
theorem eqs_solvers_r_zero (a1 b1 a2 b2 n : Int)
    (h : (b1 - b2) % n = 0) :
    eqs_solvers a1 b1 a2 b2 n = none := by
  simp [eqs_solvers, h]

/-- C4 witness: `b1 = b2 = 3` gives `r = 0` and a `none` result. -/
theorem eqs_solvers_r_zero_witness :
    ((3 : Int) - 3) % 5 = 0 ∧ eqs_solvers 1 3 2 3 5 = none :=
  ⟨by decide, eqs_solvers_r_zero 1 3 2 3 5 (by decide)⟩

/-! ## C5 — degenerate fallback returns zero -/

/-- C5: in the non-invertible branch of `eqs_solvers` (`r` nonzero and
`gcd(r, n) > 1`), whenever the branch returns a value at all, the returned
value is exactly `0`, because the numerator is computed as `a2 - a2`, which is
always zero. -/
theorem eqs_solvers_fallback_zero (a1 b1 a2 b2 n v : Int)
    (hr : (b1 - b2) % n ≠ 0)
    (hg : Int.gcd ((b1 - b2) % n) n ≠ 1)
    (hv : eqs_solvers a1 b1 a2 b2 n = some v) : v = 0 := by
  simp only [eqs_solvers, hr, if_neg, if_false, ite_false,
    sub_self, Int.zero_tdiv, mul_zero, Int.zero_emod] at hv
  rcases h1 : invert ((b1 - b2) % n) n with _ | w
  · rw [h1] at hv
    rcases h2 : invert ((b1 - b2).tdiv (Int.gcd ((b1 - b2) % n) n))
        (n.tdiv (Int.gcd ((b1 - b2) % n) n)) with _ | u
    · rw [h2] at hv; exact absurd hv (by simp)
    · rw [h2] at hv
      simp only [Option.some.injEq] at hv
      omega
  · exfalso
    have := invert_some_gcd _ _ _ h1
    exact hg this

/-! ## C3 — invertible branch of the congruence solver -/

/-- C3: for all `a1`, `b1`, `a2`, `b2` and (positive) modulus `n`,
`eqs_solvers` first computes `r = (b1 - b2) mod n` by Euclidean reduction (a
value in `[0, n)`); if `r` is nonzero and `r` is invertible modulo `n`, it
returns `Some((r⁻¹ * (a2 - a1)) mod n)`, where `r⁻¹` is the inverse of `r`
modulo `n` in `[0, n)`. -/
theorem eqs_solvers_invertible (a1 b1 a2 b2 n : Int) (hn : 0 < n)
    (hr : (b1 - b2) % n ≠ 0)
    (hg : Int.gcd ((b1 - b2) % n) n = 1) :
    0 ≤ (b1 - b2) % n ∧ (b1 - b2) % n < n ∧
    ∃ rinv, 0 ≤ rinv ∧ rinv < n ∧ (((b1 - b2) % n) * rinv) % n = 1 % n ∧
      eqs_solvers a1 b1 a2 b2 n = some ((rinv * (a2 - a1)) % n) := by
  obtain ⟨v, hv⟩ := invert_complete _ n hn hg
  obtain ⟨h0, hlt, hinv⟩ := invert_some_prop _ n v hv
  refine ⟨Int.emod_nonneg _ (by omega), Int.emod_lt_of_pos _ hn,
    v, h0, hlt, hinv, ?_⟩
  simp [eqs_solvers, hr, hv]

/-- C3 witness: `b1 - b2 = 2`, `n = 5`, invertible case. -/
theorem eqs_solvers_invertible_witness :
    (0 : Int) < 5 ∧ ((3 : Int) - 1) % 5 ≠ 0 ∧ Int.gcd (((3 : Int) - 1) % 5) 5 = 1 ∧
    (0 ≤ ((3 : Int) - 1) % 5 ∧ ((3 : Int) - 1) % 5 < 5 ∧
     ∃ rinv, 0 ≤ rinv ∧ rinv < 5 ∧ ((((3 : Int) - 1) % 5) * rinv) % 5 = 1 % 5 ∧
       eqs_solvers 1 3 2 1 5 = some ((rinv * ((2 : Int) - 1)) % 5)) :=
  ⟨by decide, by decide, by decide,
    eqs_solvers_invertible 1 3 2 1 5 (by decide) (by decide) (by decide)⟩

/-- C5 witness: `b1 - b2 = 2`, `n = 4` takes the fallback (`gcd = 2`) and the
returned value is `0`. -/
theorem eqs_solvers_fallback_zero_witness :
    ((2 : Int) - 0) % 4 ≠ 0 ∧ Int.gcd (((2 : Int) - 0) % 4) 4 ≠ 1 ∧
    eqs_solvers 0 2 0 0 4 = some 0 ∧ (0 : Int) = 0 :=
  ⟨by decide, by decide, by decide,
    eqs_solvers_fallback_zero 0 2 0 0 4 0 (by decide) (by decide) (by decide)⟩


/-! ## C6 — retry driver -/

/-- The retry loop returns the first successful attempt among
`cur, cur+1, …, cur+remaining`, and `0` when every attempt fails. -/
lemma try_loop_spec (draw : Int → Int × Int) (base y p n : Int) :
    ∀ (remaining : Nat) (cur : Int),
      try_loop draw base y p n remaining cur =
        (((List.range (remaining + 1)).findSome? fun j : Nat =>
          pollard_rho (draw (cur + (j : Int))).1 (draw (cur + (j : Int))).2
            base y p n).getD 0) := by
  intro remaining
  induction remaining with
  | zero =>
      intro cur
      rw [try_loop]
      rcases h : pollard_rho (draw cur).1 (draw cur).2 base y p n with _ | k <;>
        simp [List.range_succ, List.findSome?_cons, h]
  | succ r ih =>
      intro cur
      rw [try_loop]
      have hfun : (fun j : Nat =>
          pollard_rho (draw (cur + 1 + (j : Int))).1 (draw (cur + 1 + (j : Int))).2
            base y p n) =
          ((fun j : Nat =>
          pollard_rho (draw (cur + (j : Int))).1 (draw (cur + (j : Int))).2
            base y p n) ∘ Nat.succ) := by
        funext j
        have harg : cur + 1 + (j : Int) = cur + ((Nat.succ j : Nat) : Int) := by
          push_cast; ring
        simp [Function.comp, harg]
      rcases h : pollard_rho (draw cur).1 (draw cur).2 base y p n with _ | k
      · rw [List.range_succ_eq_map, List.findSome?_cons]
        simp only [Nat.cast_zero, add_zero, h, List.findSome?_map]
        rw [ih (cur + 1), hfun]
      · rw [List.range_succ_eq_map, List.findSome?_cons]
        simp only [Nat.cast_zero, add_zero, h, Option.getD_some]

/-- C6: `try_pollard_rho limit seed …` invokes `pollard_rho` with seeds
`seed, seed+1, seed+2, …`, performing at most `limit` additional attempts
after the first; it returns the value of the first attempt that yields `Some`,
and returns exactly the integer zero if all `limit+1` attempts yield `None` —
in particular, with `limit = 0` and a single failing attempt the result is
exactly zero.  (`List.findSome?` over `[0, …, limit]` is precisely "the first
success among seeds `seed+0, …, seed+limit`, else the `getD` default `0`".) -/
theorem try_pollard_rho_first_success (draw : Int → Int × Int) (limit : Nat)
    (seed base y p n : Int) :
    try_pollard_rho draw limit seed base y p n =
      (((List.range (limit + 1)).findSome? fun j : Nat =>
        pollard_rho (draw (seed + (j : Int))).1 (draw (seed + (j : Int))).2
          base y p n).getD 0) :=
  try_loop_spec draw base y p n limit seed


/-! ## C7 — bounded termination / exhaustion -/

/-- Unfolding of one `rho_iter` step. -/
lemma rho_iter_succ (base y p n : Int) (s0 : WalkState) (k : Nat) :
    rho_iter base y p n s0 (k + 1) = step1 base y p n (rho_iter base y p n s0 k) := rfl

/-- With non-negative draws, `pollard_rho` is the loop started on the
initial walker built from `base^a0 * y^b0 mod p`. -/
lemma pollard_rho_eq (a0 b0 base y p n : Int) (ha : 0 ≤ a0) (hb : 0 ≤ b0) :
    pollard_rho a0 b0 base y p n =
      rho_loop base y p n n.toNat (rho_init a0 b0 base y p)
        (rho_init a0 b0 base y p) := by
  unfold pollard_rho pow_mod
  rw [if_pos ha, if_pos hb]
  rfl

/-- If the tortoise and hare positions differ at every one of the next `fuel`
super-steps, the loop exhausts its fuel and returns `none`. -/
lemma rho_loop_none (base y p n : Int) (s0 : WalkState) :
    ∀ (fuel j : Nat),
      (∀ k : Nat, k < fuel →
        (rho_iter base y p n s0 (j + k + 1)).x_i ≠
        (rho_iter base y p n s0 (2 * (j + k + 1))).x_i) →
      rho_loop base y p n fuel (rho_iter base y p n s0 j)
        (rho_iter base y p n s0 (2 * j)) = none := by
  intro fuel
  induction fuel with
  | zero => intro j _; rfl
  | succ fuel ih =>
      intro j h
      have ht : step1 base y p n (rho_iter base y p n s0 j) =
          rho_iter base y p n s0 (j + 1) := rfl
      have hh : hare_step base y p n (rho_iter base y p n s0 (2 * j)) =
          rho_iter base y p n s0 (2 * (j + 1)) := by
        rw [hare_step_eq_two]
        have h2 : 2 * (j + 1) = 2 * j + 1 + 1 := by ring
        rw [h2, rho_iter_succ, rho_iter_succ]
      simp only [rho_loop, ht, hh]
      have hne : (rho_iter base y p n s0 (j + 1)).x_i ≠
          (rho_iter base y p n s0 (2 * (j + 1))).x_i := h 0 (by omega)
      rw [if_neg hne]
      apply ih (j + 1)
      intro k hk
      have h2 := h (k + 1) (by omega)
      have e : j + (k + 1) + 1 = j + 1 + k + 1 := by ring
      rwa [e] at h2

/-- C7: for every `n ≥ 1` the main loop of `pollard_rho` executes at most `n`
iterations (the counter `i`, starting at `0`, increments on every
non-colliding iteration and the loop guard is `i < n`; in the model the loop
carries the fuel `n.toNat`), so `pollard_rho` always terminates (it is a total
function), and it returns `none` when no collision `x_i = x_2i` occurs within
those `n` iterations. -/
theorem pollard_rho_exhausts_none (a0 b0 base y p n : Int)
    (hn : 1 ≤ n) (ha : 0 ≤ a0) (hb : 0 ≤ b0)
    (hnc : ∀ k : Nat, k < n.toNat →
      (rho_iter base y p n (rho_init a0 b0 base y p) (k + 1)).x_i ≠
      (rho_iter base y p n (rho_init a0 b0 base y p) (2 * (k + 1))).x_i) :
    pollard_rho a0 b0 base y p n = none := by
  rw [pollard_rho_eq a0 b0 base y p n ha hb]
  have h0 : rho_init a0 b0 base y p =
      rho_iter base y p n (rho_init a0 b0 base y p) 0 := rfl
  calc rho_loop base y p n n.toNat (rho_init a0 b0 base y p)
        (rho_init a0 b0 base y p)
      = rho_loop base y p n n.toNat
          (rho_iter base y p n (rho_init a0 b0 base y p) 0)
          (rho_iter base y p n (rho_init a0 b0 base y p) (2 * 0)) := rfl
    _ = none := by
        apply rho_loop_none
        intro k hk
        have h2 := hnc k hk
        have e : 0 + k + 1 = k + 1 := by omega
        rw [e]
        exact h2

/-- C7 witness: `base = 2`, `y = 2`, `p = 3`, `n = 1`, zero draws — the single
iteration produces no collision, and the search returns `none`. -/
theorem pollard_rho_exhausts_none_witness :
    (1 : Int) ≤ 1 ∧ (0 : Int) ≤ 0 ∧
    (∀ k : Nat, k < (1 : Int).toNat →
      (rho_iter 2 2 3 1 (rho_init 0 0 2 2 3) (k + 1)).x_i ≠
      (rho_iter 2 2 3 1 (rho_init 0 0 2 2 3) (2 * (k + 1))).x_i) ∧
    pollard_rho 0 0 2 2 3 1 = none :=
  ⟨by decide, by decide, by decide,
    pollard_rho_exhausts_none 0 0 2 2 3 1 (by decide) (by decide) (by decide)
      (by decide)⟩


/-! ## C10 — range of all results -/

/-- Every value produced by `eqs_solvers` lies in `[0, n)` for `n ≥ 1`:
the invertible branch is a Euclidean reduction mod `n`, and the fallback
branch always produces `0`. -/
lemma eqs_solvers_mem_range (a1 b1 a2 b2 n v : Int) (hn : 1 ≤ n)
    (hv : eqs_solvers a1 b1 a2 b2 n = some v) : 0 ≤ v ∧ v < n := by
  by_cases hr : (b1 - b2) % n = 0
  · simp [eqs_solvers, hr] at hv
  · rcases h1 : invert ((b1 - b2) % n) n with _ | w
    · simp only [eqs_solvers, hr, if_neg, ite_false, h1, sub_self,
        Int.zero_tdiv, mul_zero, Int.zero_emod] at hv
      rcases h2 : invert ((b1 - b2).tdiv (Int.gcd ((b1 - b2) % n) n))
          (n.tdiv (Int.gcd ((b1 - b2) % n) n)) with _ | u
      · rw [h2] at hv; exact absurd hv (by simp)
      · rw [h2] at hv
        simp only [Option.some.injEq] at hv
        omega
    · simp only [eqs_solvers, hr, if_neg, ite_false, h1,
        Option.some.injEq] at hv
      constructor
      · rw [← hv]; exact Int.emod_nonneg _ (by omega)
      · rw [← hv]; exact Int.emod_lt_of_pos _ (by omega)

/-- A successful loop run hands back a value of `eqs_solvers` on `n`. -/
lemma rho_loop_some_eqs (base y p n : Int) :
    ∀ (fuel : Nat) (t h : WalkState) (k : Int),
      rho_loop base y p n fuel t h = some k →
      ∃ a1 b1 a2 b2, eqs_solvers a1 b1 a2 b2 n = some k := by
  intro fuel
  induction fuel with
  | zero => intro t h k hk; exact absurd hk (by simp [rho_loop])
  | succ fuel ih =>
      intro t h k hk
      simp only [rho_loop] at hk
      split at hk
      · exact ⟨_, _, _, _, hk⟩
      · exact ih _ _ k hk

/-- A successful `pollard_rho` run hands back a value of `eqs_solvers`. -/
lemma pollard_rho_some_eqs (a0 b0 base y p n k : Int)
    (hk : pollard_rho a0 b0 base y p n = some k) :
    ∃ a1 b1 a2 b2, eqs_solvers a1 b1 a2 b2 n = some k := by
  unfold pollard_rho at hk
  rcases h1 : pow_mod base a0 p with _ | u <;> rw [h1] at hk
  · exact absurd hk (by simp)
  · rcases h2 : pow_mod y b0 p with _ | w <;> rw [h2] at hk
    · exact absurd hk (by simp)
    · exact rho_loop_some_eqs base y p n n.toNat _ _ k hk

/-- The retry loop always returns a value in `[0, n)` for `n ≥ 1`. -/
lemma try_loop_mem_range (draw : Int → Int × Int) (base y p n : Int)
    (hn : 1 ≤ n) :
    ∀ (remaining : Nat) (cur : Int),
      0 ≤ try_loop draw base y p n remaining cur ∧
      try_loop draw base y p n remaining cur < n := by
  intro remaining
  induction remaining with
  | zero =>
      intro cur
      rw [try_loop]
      rcases h : pollard_rho (draw cur).1 (draw cur).2 base y p n with _ | k
      · simpa using hn
      · obtain ⟨a1, b1, a2, b2, he⟩ := pollard_rho_some_eqs _ _ _ _ _ _ _ h
        simpa using eqs_solvers_mem_range a1 b1 a2 b2 n k hn he
  | succ r ih =>
      intro cur
      rw [try_loop]
      rcases h : pollard_rho (draw cur).1 (draw cur).2 base y p n with _ | k
      · simpa using ih (cur + 1)
      · obtain ⟨a1, b1, a2, b2, he⟩ := pollard_rho_some_eqs _ _ _ _ _ _ _ h
        simpa using eqs_solvers_mem_range a1 b1 a2 b2 n k hn he

/-- C10: for every `n ≥ 1`, every value returned as `Some` by `eqs_solvers`
lies in `[0, n)` — the invertible branch reduces modulo `n` and the fallback
branch produces a value (always `0`) below `n` — and therefore every `Some`
value of `pollard_rho` and every value returned by `try_pollard_rho`
(including the zero sentinel) lies in `[0, n)`. -/
theorem results_in_range (base y p n : Int) (hn : 1 ≤ n) :
    (∀ a1 b1 a2 b2 v, eqs_solvers a1 b1 a2 b2 n = some v → 0 ≤ v ∧ v < n) ∧
    (∀ a0 b0 k, pollard_rho a0 b0 base y p n = some k → 0 ≤ k ∧ k < n) ∧
    (∀ (draw : Int → Int × Int) (limit : Nat) (seed : Int),
      0 ≤ try_pollard_rho draw limit seed base y p n ∧
      try_pollard_rho draw limit seed base y p n < n) := by
  refine ⟨fun a1 b1 a2 b2 v hv => eqs_solvers_mem_range a1 b1 a2 b2 n v hn hv,
    fun a0 b0 k hk => ?_, fun draw limit seed => ?_⟩
  · obtain ⟨a1, b1, a2, b2, he⟩ := pollard_rho_some_eqs _ _ _ _ _ _ _ hk
    exact eqs_solvers_mem_range a1 b1 a2 b2 n k hn he
  · exact try_loop_mem_range draw base y p n hn limit seed

/-- C10 witness: with `n = 3` and a failing search the retry driver returns
the sentinel `0`, which lies in `[0, 3)`. -/
theorem results_in_range_witness :
    (1 : Int) ≤ 3 ∧
    (0 ≤ try_pollard_rho (fun _ => ((0 : Int), (0 : Int))) 0 0 2 4 7 3 ∧
     try_pollard_rho (fun _ => ((0 : Int), (0 : Int))) 0 0 2 4 7 3 < 3) :=
  ⟨by decide,
    (results_in_range 2 4 7 3 (by decide)).2.2 (fun _ => ((0 : Int), (0 : Int))) 0 0⟩


/-! ## C2 — walk invariant -/

/-- A modulus admitting an element whose power reduces to `1` exceeds `1`. -/
lemma one_lt_of_pow_emod_one (g m : Int) (nn : Nat) (hm : 0 < m)
    (hord : (g ^ nn) % m = 1) : 1 < m := by
  have := Int.emod_lt_of_pos (g ^ nn) hm
  omega

/-- Powers of `g` only matter modulo the exponent period `nn`: if
`g ^ nn mod m = 1` then `g ^ (s mod nn) ≡ g ^ s (mod m)`. -/
lemma pow_emod_cycle (g m : Int) (nn : Nat) (hm : 0 < m)
    (hord : (g ^ nn) % m = 1) (s : Nat) :
    g ^ (s % nn) ≡ g ^ s [ZMOD m] := by
  have hm1 : 1 < m := one_lt_of_pow_emod_one g m nn hm hord
  have h1 : g ^ nn ≡ 1 [ZMOD m] := by
    unfold Int.ModEq
    rw [hord, Int.emod_eq_of_lt (by omega) hm1]
  calc g ^ (s % nn)
      = 1 ^ (s / nn) * g ^ (s % nn) := by rw [one_pow, one_mul]
    _ ≡ (g ^ nn) ^ (s / nn) * g ^ (s % nn) [ZMOD m] :=
        Int.ModEq.mul_right _ ((h1.symm).pow _)
    _ = g ^ (nn * (s / nn)) * g ^ (s % nn) := by rw [pow_mul]
    _ = g ^ (nn * (s / nn) + s % nn) := by rw [pow_add]
    _ = g ^ s := by rw [Nat.div_add_mod]

/-- `toNat` commutes with Euclidean reduction on non-negative arguments. -/
lemma toNat_emod (e n : Int) (he : 0 ≤ e) (hn : 0 < n) :
    (e % n).toNat = e.toNat % n.toNat := by
  have h1 : 0 ≤ e % n := Int.emod_nonneg e (by omega)
  have h3 : n * (e / n) + e % n = e := Int.ediv_add_emod e n
  have h4 : 0 ≤ e / n := Int.ediv_nonneg he hn.le
  have key : ((e.toNat % n.toNat : Nat) : Int) = (e % n).toNat := by
    push_cast [Int.toNat_of_nonneg h1, Int.toNat_of_nonneg he,
      Int.toNat_of_nonneg hn.le]
    rfl
  omega

/-- Reducing an exponent accumulator modulo `n` does not change the value of
the corresponding power modulo `p`. -/
lemma pow_toNat_emod_cycle (g m n : Int) (hn : 0 < n) (hm : 0 < m)
    (hord : (g ^ n.toNat) % m = 1) (e : Int) (he : 0 ≤ e) :
    g ^ ((e % n).toNat) ≡ g ^ e.toNat [ZMOD m] := by
  rw [toNat_emod e n he hn]
  exact pow_emod_cycle g m n.toNat hm hord e.toNat

/-- The invariant carried by each walker: the position is
`base^a * y^b mod p` and the accumulators are non-negative. -/
def WalkInv (base y p : Int) (s : WalkState) : Prop :=
  s.x_i = (base ^ s.a_i.toNat * y ^ s.b_i.toNat) % p ∧ 0 ≤ s.a_i ∧ 0 ≤ s.b_i

/-- Reduction mod `m` produces a congruent value. -/
lemma emod_modEq_self (a m : Int) : a % m ≡ a [ZMOD m] :=
  Int.emod_emod_of_dvd _ dvd_rfl

/-- One application of the single step preserves the walk invariant. -/
lemma step1_preserves (base y p n : Int) (hp : 0 < p) (hn : 0 < n)
    (hordb : (base ^ n.toNat) % p = 1) (hordy : (y ^ n.toNat) % p = 1)
    (s : WalkState) (hs : WalkInv base y p s) :
    WalkInv base y p (step1 base y p n s) := by
  obtain ⟨hx, ha, hb⟩ := hs
  rcases emod_three_cases s.x_i with h | h | h
  · simp only [WalkInv, step1, func_f, func_g, func_h, MapResult.expect, h,
      if_pos, if_true, reduceIte]
    refine ⟨?_, Int.emod_nonneg _ (by omega), Int.emod_nonneg _ (by omega)⟩
    show Int.ModEq p (s.x_i ^ 2)
      (base ^ ((s.a_i * 2 % n).toNat) * y ^ ((s.b_i * 2 % n).toNat))
    have e1 : (s.a_i * 2).toNat = s.a_i.toNat * 2 := by omega
    have e2 : (s.b_i * 2).toNat = s.b_i.toNat * 2 := by omega
    calc s.x_i ^ 2
        = ((base ^ s.a_i.toNat * y ^ s.b_i.toNat) % p) ^ 2 := by rw [hx]
      _ ≡ (base ^ s.a_i.toNat * y ^ s.b_i.toNat) ^ 2 [ZMOD p] :=
          (emod_modEq_self _ _).pow 2
      _ = base ^ (s.a_i.toNat * 2) * y ^ (s.b_i.toNat * 2) := by
          rw [mul_pow, ← pow_mul, ← pow_mul]
      _ = base ^ ((s.a_i * 2).toNat) * y ^ ((s.b_i * 2).toNat) := by
          rw [e1, e2]
      _ ≡ base ^ ((s.a_i * 2 % n).toNat) * y ^ ((s.b_i * 2 % n).toNat)
            [ZMOD p] :=
          Int.ModEq.mul
            ((pow_toNat_emod_cycle base p n hn hp hordb _ (by omega)).symm)
            ((pow_toNat_emod_cycle y p n hn hp hordy _ (by omega)).symm)
  · simp only [WalkInv, step1, func_f, func_g, func_h, MapResult.expect, h,
      if_pos, if_true, reduceIte]
    refine ⟨?_, Int.emod_nonneg _ (by omega), hb⟩
    show Int.ModEq p (base * s.x_i)
      (base ^ (((s.a_i + 1) % n).toNat) * y ^ (s.b_i.toNat))
    have e1 : (s.a_i + 1).toNat = s.a_i.toNat + 1 := by omega
    calc base * s.x_i
        = base * ((base ^ s.a_i.toNat * y ^ s.b_i.toNat) % p) := by rw [hx]
      _ ≡ base * (base ^ s.a_i.toNat * y ^ s.b_i.toNat) [ZMOD p] :=
          Int.ModEq.mul_left _ (emod_modEq_self _ _)
      _ = base ^ ((s.a_i + 1).toNat) * y ^ s.b_i.toNat := by
          rw [e1, pow_succ]; ring
      _ ≡ base ^ (((s.a_i + 1) % n).toNat) * y ^ s.b_i.toNat [ZMOD p] :=
          Int.ModEq.mul_right _
            ((pow_toNat_emod_cycle base p n hn hp hordb _ (by omega)).symm)
  · simp only [WalkInv, step1, func_f, func_g, func_h, MapResult.expect, h,
      if_pos, if_true, reduceIte]
    refine ⟨?_, ha, Int.emod_nonneg _ (by omega)⟩
    show Int.ModEq p (y * s.x_i)
      (base ^ (s.a_i.toNat) * y ^ (((s.b_i + 1) % n).toNat))
    have e1 : (s.b_i + 1).toNat = s.b_i.toNat + 1 := by omega
    calc y * s.x_i
        = y * ((base ^ s.a_i.toNat * y ^ s.b_i.toNat) % p) := by rw [hx]
      _ ≡ y * (base ^ s.a_i.toNat * y ^ s.b_i.toNat) [ZMOD p] :=
          Int.ModEq.mul_left _ (emod_modEq_self _ _)
      _ = base ^ s.a_i.toNat * y ^ ((s.b_i + 1).toNat) := by
          rw [e1, pow_succ]; ring
      _ ≡ base ^ s.a_i.toNat * y ^ (((s.b_i + 1) % n).toNat) [ZMOD p] :=
          Int.ModEq.mul_left _
            ((pow_toNat_emod_cycle y p n hn hp hordy _ (by omega)).symm)

/-- The initial walker satisfies the invariant. -/
lemma rho_init_inv (a0 b0 base y p : Int) (ha : 0 ≤ a0) (hb : 0 ≤ b0) :
    WalkInv base y p (rho_init a0 b0 base y p) :=
  ⟨(Int.mul_emod _ _ _).symm, ha, hb⟩

/-- Every iterate of the single step satisfies the invariant. -/
lemma rho_iter_inv (base y p n : Int) (hp : 0 < p) (hn : 0 < n)
    (hordb : (base ^ n.toNat) % p = 1) (hordy : (y ^ n.toNat) % p = 1)
    (s0 : WalkState) (h0 : WalkInv base y p s0) (k : Nat) :
    WalkInv base y p (rho_iter base y p n s0 k) := by
  induction k with
  | zero => exact h0
  | succ k ih => exact step1_preserves base y p n hp hn hordb hordy _ ih

/-- A target in the subgroup generated by `base` also has period `n`. -/
lemma hordy_of_hy (base y p n : Int) (x : Nat) (hp : 0 < p) (hn : 0 < n)
    (hordb : (base ^ n.toNat) % p = 1) (hy : y = (base ^ x) % p) :
    (y ^ n.toNat) % p = 1 := by
  have hp1 : 1 < p := one_lt_of_pow_emod_one base p n.toNat hp hordb
  have h1 : base ^ n.toNat ≡ 1 [ZMOD p] := by
    unfold Int.ModEq
    rw [hordb, Int.emod_eq_of_lt (by omega) hp1]
  have h2 : y ^ n.toNat ≡ 1 [ZMOD p] := by
    calc y ^ n.toNat
        = ((base ^ x) % p) ^ n.toNat := by rw [hy]
      _ ≡ (base ^ x) ^ n.toNat [ZMOD p] := (emod_modEq_self _ _).pow _
      _ = (base ^ n.toNat) ^ x := by rw [← pow_mul, mul_comm, pow_mul]
      _ ≡ 1 ^ x [ZMOD p] := h1.pow x
      _ = 1 := one_pow x
  calc (y ^ n.toNat) % p = 1 % p := h2
    _ = 1 := Int.emod_eq_of_lt (by omega) hp1

/-- C2: in every iteration of `pollard_rho`, after the initial state
`(x_0, a_0, b_0)` is computed and after every application of the step
functions to either the tortoise or the hare, the position satisfies
`x_i = base^{a_i} * y^{b_i} mod p`, given that `n` is the order of `base`
modulo `p` (here: `base^n mod p = 1`) and `y` lies in the subgroup generated
by `base` (`y = base^x mod p`).  The tortoise after `i` super-steps is the
`i`-th iterate of the single step, and the hare is the `2i`-th (with its
intermediate half-step the `(2i-1)`-st), so quantifying over all iterates `k`
covers the initial state, every tortoise state and every hare state. -/
theorem walk_invariant (a0 b0 base y p n : Int) (x : Nat)
    (hp : 0 < p) (hn : 0 < n)
    (hord : (base ^ n.toNat) % p = 1)
    (hy : y = (base ^ x) % p)
    (ha : 0 ≤ a0) (hb : 0 ≤ b0) :
    ∀ k : Nat,
      (rho_iter base y p n (rho_init a0 b0 base y p) k).x_i =
        (base ^ (rho_iter base y p n (rho_init a0 b0 base y p) k).a_i.toNat *
         y ^ (rho_iter base y p n (rho_init a0 b0 base y p) k).b_i.toNat) % p := by
  intro k
  exact (rho_iter_inv base y p n hp hn hord
    (hordy_of_hy base y p n x hp hn hord hy)
    (rho_init a0 b0 base y p) (rho_init_inv a0 b0 base y p ha hb) k).1

/-- C2 witness: `base = 2`, `p = 7`, `n = 3` (the order of `2` mod `7`),
`y = 4 = 2^2 mod 7`, zero draws, instantiated at the third iterate. -/
theorem walk_invariant_witness :
    (0 : Int) < 7 ∧ (0 : Int) < 3 ∧ ((2 : Int) ^ (3 : Int).toNat) % 7 = 1 ∧
    (4 : Int) = ((2 : Int) ^ (2 : Nat)) % 7 ∧ (0 : Int) ≤ 0 ∧
    (rho_iter 2 4 7 3 (rho_init 0 0 2 4 7) 3).x_i =
      ((2 : Int) ^ (rho_iter 2 4 7 3 (rho_init 0 0 2 4 7) 3).a_i.toNat *
       (4 : Int) ^ (rho_iter 2 4 7 3 (rho_init 0 0 2 4 7) 3).b_i.toNat) % 7 :=
  ⟨by decide, by decide, by decide, by decide, by decide,
    walk_invariant 0 0 2 4 7 3 2 (by decide) (by decide) (by decide) (by decide)
      (by decide) (by decide) 3⟩


/-! ## C1 — soundness of a successful search -/

/-- With `n` the minimal period of `base` modulo `p`, a power of `base`
reduces to `1` exactly when the exponent is a multiple of `n`. -/
lemma order_dvd_iff (base p n : Int) (hp : 0 < p) (hn : 0 < n)
    (hord : (base ^ n.toNat) % p = 1)
    (hmin : ∀ d : Nat, d < n.toNat → 0 < d → (base ^ d) % p ≠ 1) :
    ∀ d : Nat, (base ^ d) % p = 1 ↔ n.toNat ∣ d := by
  have hp1 : 1 < p := one_lt_of_pow_emod_one base p n.toNat hp hord
  have hnn : 0 < n.toNat := by omega
  have h1 : base ^ n.toNat ≡ 1 [ZMOD p] := by
    unfold Int.ModEq
    rw [hord, Int.emod_eq_of_lt (by omega) hp1]
  intro d
  constructor
  · intro hd
    have h2 : (base ^ (d % n.toNat)) % p = 1 := by
      have h3 : base ^ (d % n.toNat) ≡ 1 [ZMOD p] := by
        calc base ^ (d % n.toNat)
            ≡ base ^ d [ZMOD p] := pow_emod_cycle base p n.toNat hp hord d
          _ ≡ 1 [ZMOD p] := by
              unfold Int.ModEq
              rw [hd, Int.emod_eq_of_lt (by omega) hp1]
      calc (base ^ (d % n.toNat)) % p = 1 % p := h3
        _ = 1 := Int.emod_eq_of_lt (by omega) hp1
    by_cases h0 : d % n.toNat = 0
    · exact Nat.dvd_of_mod_eq_zero h0
    · exact absurd h2 (hmin _ (Nat.mod_lt _ hnn) (by omega))
  · rintro ⟨t, rfl⟩
    calc (base ^ (n.toNat * t)) % p
        = ((base ^ n.toNat) ^ t) % p := by rw [pow_mul]
      _ = (1 : Int) ^ t % p := h1.pow t
      _ = 1 % p := by rw [one_pow]
      _ = 1 := Int.emod_eq_of_lt (by omega) hp1

/-- A base with period `n` is invertible — hence coprime — modulo `p`. -/
lemma isCoprime_base (base p n : Int) (hp : 0 < p) (hn : 0 < n)
    (hord : (base ^ n.toNat) % p = 1) : IsCoprime base p := by
  have hp1 : 1 < p := one_lt_of_pow_emod_one base p n.toNat hp hord
  have hnn : 0 < n.toNat := by omega
  have h1 : base ^ n.toNat ≡ 1 [ZMOD p] := by
    unfold Int.ModEq
    rw [hord, Int.emod_eq_of_lt (by omega) hp1]
  rw [Int.modEq_iff_dvd] at h1
  obtain ⟨t, ht⟩ := h1
  refine ⟨base ^ (n.toNat - 1), t, ?_⟩
  have e2 : base ^ (n.toNat - 1) * base = base ^ n.toNat := by
    rw [← pow_succ]
    congr 1
    omega
  rw [e2]
  have e3 : t * p = 1 - base ^ n.toNat := by rw [ht]; ring
  rw [e3]
  ring

/-- Congruent powers of `base` modulo `p` have congruent exponents modulo the
order `n` — one-sided version. -/
lemma exp_congr_of_pow_congr_le (base p n : Int) (hp : 0 < p) (hn : 0 < n)
    (hord : (base ^ n.toNat) % p = 1)
    (hmin : ∀ d : Nat, d < n.toNat → 0 < d → (base ^ d) % p ≠ 1)
    (u v : Nat) (huv : u ≤ v) (h : base ^ u ≡ base ^ v [ZMOD p]) :
    (u : Int) ≡ (v : Int) [ZMOD n] := by
  have hp1 : 1 < p := one_lt_of_pow_emod_one base p n.toNat hp hord
  have hco : Int.gcd p (base ^ u) = 1 := by
    have h1 : IsCoprime (base ^ u) p :=
      IsCoprime.pow_left (isCoprime_base base p n hp hn hord)
    rw [Int.gcd_comm]
    exact Int.gcd_eq_one_iff_coprime.mpr h1
  have hsplit : base ^ v = base ^ (v - u) * base ^ u := by
    rw [← pow_add]
    congr 1
    omega
  have h2 : 1 * base ^ u ≡ base ^ (v - u) * base ^ u [ZMOD p] := by
    rw [one_mul, ← hsplit]
    exact h
  have h3 := Int.ModEq.cancel_right_div_gcd hp h2
  rw [hco] at h3
  have h4 : (1 : Int) ≡ base ^ (v - u) [ZMOD p] := by simpa using h3
  have h5 : (base ^ (v - u)) % p = 1 := by
    calc (base ^ (v - u)) % p = 1 % p := h4.symm
      _ = 1 := Int.emod_eq_of_lt (by omega) hp1
  have h6 : n.toNat ∣ v - u :=
    (order_dvd_iff base p n hp hn hord hmin (v - u)).mp h5
  rw [Int.modEq_iff_dvd]
  obtain ⟨t, ht⟩ := h6
  refine ⟨(t : Int), ?_⟩
  have e1 : (v : Int) - (u : Int) = ((v - u : Nat) : Int) := by
    push_cast [huv]
    ring
  rw [e1, ht]
  push_cast
  rw [Int.toNat_of_nonneg hn.le]

/-- Congruent powers of `base` modulo `p` have congruent exponents modulo the
order `n`. -/
lemma exp_congr_of_pow_congr (base p n : Int) (hp : 0 < p) (hn : 0 < n)
    (hord : (base ^ n.toNat) % p = 1)
    (hmin : ∀ d : Nat, d < n.toNat → 0 < d → (base ^ d) % p ≠ 1)
    (u v : Nat) (h : base ^ u ≡ base ^ v [ZMOD p]) :
    (u : Int) ≡ (v : Int) [ZMOD n] := by
  rcases le_total u v with huv | hvu
  · exact exp_congr_of_pow_congr_le base p n hp hn hord hmin u v huv h
  · exact (exp_congr_of_pow_congr_le base p n hp hn hord hmin v u hvu h.symm).symm

/-- A successful loop run exits at a collision of two iterates of the single
step, handing the colliding accumulators to `eqs_solvers`. -/
lemma rho_loop_some_collision (base y p n : Int) (s0 : WalkState) :
    ∀ (fuel j : Nat) (k : Int),
      rho_loop base y p n fuel (rho_iter base y p n s0 j)
        (rho_iter base y p n s0 (2 * j)) = some k →
      ∃ m : Nat,
        (rho_iter base y p n s0 m).x_i = (rho_iter base y p n s0 (2 * m)).x_i ∧
        eqs_solvers (rho_iter base y p n s0 m).a_i
          (rho_iter base y p n s0 m).b_i
          (rho_iter base y p n s0 (2 * m)).a_i
          (rho_iter base y p n s0 (2 * m)).b_i n = some k := by
  intro fuel
  induction fuel with
  | zero => intro j k hk; exact absurd hk (by simp [rho_loop])
  | succ fuel ih =>
      intro j k hk
      have ht : step1 base y p n (rho_iter base y p n s0 j) =
          rho_iter base y p n s0 (j + 1) := rfl
      have hh : hare_step base y p n (rho_iter base y p n s0 (2 * j)) =
          rho_iter base y p n s0 (2 * (j + 1)) := by
        rw [hare_step_eq_two]
        have h2 : 2 * (j + 1) = 2 * j + 1 + 1 := by ring
        rw [h2, rho_iter_succ, rho_iter_succ]
      simp only [rho_loop, ht, hh] at hk
      by_cases hc : (rho_iter base y p n s0 (j + 1)).x_i =
          (rho_iter base y p n s0 (2 * (j + 1))).x_i
      · rw [if_pos hc] at hk
        exact ⟨j + 1, hc, hk⟩
      · rw [if_neg hc] at hk
        exact ih (j + 1) k hk

/-- C1: for every prime `n` that is the order of `base` modulo `p` (stated as
`base^n mod p = 1` together with minimality), and every `y` with
`y = base^x mod p` for some `x`, whenever `pollard_rho` (with draws `a0`, `b0`
produced by the seeded sampler, hence non-negative) returns `some k`, then
`base^k mod p = y` and `k = x mod n`. -/
theorem pollard_rho_sound (a0 b0 base y p n k : Int) (x : Nat)
    (hp : 1 < p) (hn : 0 < n) (hprime : Nat.Prime n.toNat)
    (ha : 0 ≤ a0) (hb : 0 ≤ b0)
    (hord : (base ^ n.toNat) % p = 1)
    (hmin : ∀ d : Nat, d < n.toNat → 0 < d → (base ^ d) % p ≠ 1)
    (hy : y = (base ^ x) % p)
    (hk : pollard_rho a0 b0 base y p n = some k) :
    (base ^ k.toNat) % p = y ∧ k = (x : Int) % n := by
  have hp0 : 0 < p := by omega
  have hordy := hordy_of_hy base y p n x hp0 hn hord hy
  rw [pollard_rho_eq a0 b0 base y p n ha hb] at hk
  obtain ⟨m, hcol, hsolve⟩ :=
    rho_loop_some_collision base y p n (rho_init a0 b0 base y p) n.toNat 0 k hk
  set s1 := rho_iter base y p n (rho_init a0 b0 base y p) m with hs1
  set s2 := rho_iter base y p n (rho_init a0 b0 base y p) (2 * m) with hs2
  obtain ⟨hx1, ha1, hb1⟩ := rho_iter_inv base y p n hp0 hn hord hordy _
    (rho_init_inv a0 b0 base y p ha hb) m
  obtain ⟨hx2, ha2, hb2⟩ := rho_iter_inv base y p n hp0 hn hord hordy _
    (rho_init_inv a0 b0 base y p ha hb) (2 * m)
  have hyc : y ≡ base ^ x [ZMOD p] := by rw [hy]; exact emod_modEq_self _ _
  have hagg : ∀ s : WalkState,
      base ^ s.a_i.toNat * y ^ s.b_i.toNat ≡
        base ^ (s.a_i.toNat + x * s.b_i.toNat) [ZMOD p] := by
    intro s
    calc base ^ s.a_i.toNat * y ^ s.b_i.toNat
        ≡ base ^ s.a_i.toNat * (base ^ x) ^ s.b_i.toNat [ZMOD p] :=
          Int.ModEq.mul_left _ (hyc.pow _)
      _ = base ^ (s.a_i.toNat + x * s.b_i.toNat) := by
          rw [← pow_mul, ← pow_add]
  have hcol2 : base ^ s1.a_i.toNat * y ^ s1.b_i.toNat ≡
      base ^ s2.a_i.toNat * y ^ s2.b_i.toNat [ZMOD p] := by
    show _ % p = _ % p
    rw [← hx1, ← hx2]
    exact hcol
  have hpow : base ^ (s1.a_i.toNat + x * s1.b_i.toNat) ≡
      base ^ (s2.a_i.toNat + x * s2.b_i.toNat) [ZMOD p] :=
    ((hagg s1).symm.trans hcol2).trans (hagg s2)
  have hcong := exp_congr_of_pow_congr base p n hp0 hn hord hmin _ _ hpow
  have hcast : s1.a_i + (x : Int) * s1.b_i ≡
      s2.a_i + (x : Int) * s2.b_i [ZMOD n] := by
    have c1 : ((s1.a_i.toNat + x * s1.b_i.toNat : Nat) : Int) =
        s1.a_i + (x : Int) * s1.b_i := by
      push_cast [Int.toNat_of_nonneg ha1, Int.toNat_of_nonneg hb1]
      ring
    have c2 : ((s2.a_i.toNat + x * s2.b_i.toNat : Nat) : Int) =
        s2.a_i + (x : Int) * s2.b_i := by
      push_cast [Int.toNat_of_nonneg ha2, Int.toNat_of_nonneg hb2]
      ring
    rw [← c1, ← c2]
    exact hcong
  by_cases hr0 : (s1.b_i - s2.b_i) % n = 0
  · simp [eqs_solvers, hr0] at hsolve
  · have hrpos : 0 < (s1.b_i - s2.b_i) % n :=
      lt_of_le_of_ne (Int.emod_nonneg _ (by omega)) (Ne.symm hr0)
    have hrlt : (s1.b_i - s2.b_i) % n < n := Int.emod_lt_of_pos _ (by omega)
    have hgcd : Int.gcd ((s1.b_i - s2.b_i) % n) n = 1 := by
      have hna : n.natAbs = n.toNat := by omega
      have hra : ((s1.b_i - s2.b_i) % n).natAbs < n.toNat := by omega
      have hra0 : ((s1.b_i - s2.b_i) % n).natAbs ≠ 0 := by omega
      unfold Int.gcd
      rw [hna]
      have hcop : Nat.Coprime n.toNat ((s1.b_i - s2.b_i) % n).natAbs :=
        (Nat.Prime.coprime_iff_not_dvd hprime).mpr (fun hdvd => by
          have := Nat.le_of_dvd (by omega) hdvd
          omega)
      exact Nat.Coprime.symm hcop
    obtain ⟨w, hw⟩ := invert_complete _ n (by omega) hgcd
    obtain ⟨hw0, hwlt, hwinv⟩ := invert_some_prop _ n w hw
    have hksome : eqs_solvers s1.a_i s1.b_i s2.a_i s2.b_i n =
        some ((w * (s2.a_i - s1.a_i)) % n) := by
      simp [eqs_solvers, hr0, hw]
    rw [hsolve] at hksome
    have hkval : k = (w * (s2.a_i - s1.a_i)) % n := Option.some.inj hksome
    have hrw : ((s1.b_i - s2.b_i) % n) * w ≡ 1 [ZMOD n] := hwinv
    have hbb : s1.b_i - s2.b_i ≡ (s1.b_i - s2.b_i) % n [ZMOD n] :=
      (emod_modEq_self _ _).symm
    have h6 : (x : Int) * (s1.b_i - s2.b_i) ≡ s2.a_i - s1.a_i [ZMOD n] := by
      have h5 := hcast.sub (Int.ModEq.refl (s1.a_i + (x : Int) * s2.b_i))
      have e1 : s1.a_i + (x : Int) * s1.b_i - (s1.a_i + (x : Int) * s2.b_i) =
          (x : Int) * (s1.b_i - s2.b_i) := by ring
      have e2 : s2.a_i + (x : Int) * s2.b_i - (s1.a_i + (x : Int) * s2.b_i) =
          s2.a_i - s1.a_i := by ring
      rwa [e1, e2] at h5
    have hkx : k ≡ (x : Int) [ZMOD n] := by
      calc k = (w * (s2.a_i - s1.a_i)) % n := hkval
        _ ≡ w * (s2.a_i - s1.a_i) [ZMOD n] := emod_modEq_self _ _
        _ ≡ w * ((x : Int) * (s1.b_i - s2.b_i)) [ZMOD n] :=
            Int.ModEq.mul_left _ h6.symm
        _ ≡ w * ((x : Int) * ((s1.b_i - s2.b_i) % n)) [ZMOD n] :=
            Int.ModEq.mul_left _ (Int.ModEq.mul_left _ hbb)
        _ = ((s1.b_i - s2.b_i) % n * w) * (x : Int) := by ring
        _ ≡ 1 * (x : Int) [ZMOD n] := Int.ModEq.mul_right _ hrw
        _ = (x : Int) := one_mul _
    have hk0 : 0 ≤ k := by
      rw [hkval]; exact Int.emod_nonneg _ (by omega)
    have hklt : k < n := by
      rw [hkval]; exact Int.emod_lt_of_pos _ (by omega)
    have hsecond : k = (x : Int) % n := by
      have h7 : k % n = (x : Int) % n := hkx
      rw [Int.emod_eq_of_lt hk0 hklt] at h7
      exact h7
    refine ⟨?_, hsecond⟩
    have hknat : k.toNat % n.toNat = x % n.toNat := by
      have h7 : ((k.toNat % n.toNat : Nat) : Int) = ((x % n.toNat : Nat) : Int) := by
        push_cast
        rw [Int.toNat_of_nonneg hk0, Int.toNat_of_nonneg hn.le]
        exact hkx
      exact_mod_cast h7
    have hfinal : base ^ k.toNat ≡ base ^ x [ZMOD p] := by
      calc base ^ k.toNat
          ≡ base ^ (k.toNat % n.toNat) [ZMOD p] :=
            (pow_emod_cycle base p n.toNat hp0 hord k.toNat).symm
        _ = base ^ (x % n.toNat) := by rw [hknat]
        _ ≡ base ^ x [ZMOD p] := pow_emod_cycle base p n.toNat hp0 hord x
    calc (base ^ k.toNat) % p = (base ^ x) % p := hfinal
      _ = y := hy.symm

/-- C1 witness: `p = 7`, `base = 2` of prime order `n = 3`, `y = 4 = 2^2`,
zero draws; the search returns `some 2`, which is `2 mod 3` and satisfies
`2^2 mod 7 = 4`. -/
theorem pollard_rho_sound_witness :
    (1 : Int) < 7 ∧ (0 : Int) < 3 ∧ Nat.Prime (3 : Int).toNat ∧
    (0 : Int) ≤ 0 ∧
    ((2 : Int) ^ (3 : Int).toNat) % 7 = 1 ∧
    (∀ d : Nat, d < (3 : Int).toNat → 0 < d → ((2 : Int) ^ d) % 7 ≠ 1) ∧
    (4 : Int) = ((2 : Int) ^ (2 : Nat)) % 7 ∧
    pollard_rho 0 0 2 4 7 3 = some 2 ∧
    (((2 : Int) ^ (2 : Int).toNat) % 7 = 4 ∧ (2 : Int) = ((2 : Nat) : Int) % 3) :=
  ⟨by decide, by decide, by decide, by decide, by decide, by decide, by decide,
    by decide,
    pollard_rho_sound 0 0 2 4 7 3 2 2 (by decide) (by decide) (by decide)
      (by decide) (by decide) (by decide) (by decide) (by decide) (by decide)⟩

end PollardRho
